import Mathlib

/-!
# Verification of `patricia_trie.hpp` (ys::PatriciaTrie)

Shallow embedding of the canonical ("refined") variant of the patricia-trie
template library: the root dispatch table consumes exactly one symbol per key
(`add_key` passes `key + 1, length - 1` to `Node::Add`), and each `Node` holds

  * `c_` : a nullable `unordered_map<K, Node*>` of children (modelled as
    `Option (List (Nat × Node))`, an association list with the map's
    find / `operator[]`-assign semantics),
  * `d_` : the edge label, a buffer of `l_` symbols (modelled as `List Nat`,
    with `l_` represented by `d_.length`, which the source keeps in sync),
  * `v_` : the stored value; the reserved sentinel `I` marks a non-terminal
    node.

Symbols (`KTYPE`) and values (`VTYPE`) are unsigned integers in the source and
are modelled as `Nat`; the reserved invalid value `INVALID` is the parameter
`I`.  `assert` statements in the source are preconditions: the model is total,
and theorems carry the corresponding hypotheses.

One point is modelled by intent rather than literally: `Node::cut_head` in the
source frees the edge buffer and then copies its tail out of the freed memory;
the evident intent (and the behaviour of the sibling header variant, which
copies before freeing) is to drop a prefix of the edge, so `cut_head n` is
modelled as `List.drop n`.

A second deliberate reading: `PatriciaTrie::remove_key` and
`PatriciaTrie::get_value` execute `return false;` when no root subtree exists
for `key[0]`.  The `bool` `false` converts to the unsigned value type as `0`,
not as `INVALID`; the model keeps this conversion literally
(`Bool.toNat false`), since it is observable and contradicts the functions'
own documentation.
-/

set_option autoImplicit false

namespace PatriciaSpec

/-- A trie node (`PatriciaTrie::Node`): nullable child map `c_`, edge label
`d_` (length `l_ = d_.length`), value `v_`. -/
inductive Node : Type where
  | mk (c : Option (List (Nat × Node))) (d : List Nat) (v : Nat) : Node

/-- Child-map field `c_`. -/
def Node.c : Node → Option (List (Nat × Node))
  | .mk c _ _ => c

/-- Edge-label field `d_` (the buffer of `l_` symbols). -/
def Node.d : Node → List Nat
  | .mk _ d _ => d

/-- Value field `v_`. -/
def Node.v : Node → Nat
  | .mk _ _ v => v

/-- `unordered_map::find`: first entry with the given key, if any. -/
def mfind {α : Type} (k : Nat) : List (Nat × α) → Option α
  | [] => none
  | (k', a) :: r => if k' = k then some a else mfind k r

/-- `unordered_map::operator[] = x`: replace the entry in place, or append a
fresh one. -/
def mset {α : Type} (k : Nat) (a : α) : List (Nat × α) → List (Nat × α)
  | [] => [(k, a)]
  | (k', b) :: r => if k' = k then (k, a) :: r else (k', b) :: mset k a r

variable (I : Nat)

/-- `Node::get_value(key, length)`: exact-match lookup of the remaining
suffix `key`; `I` on any mismatch. -/
def Node.get_value : Node → List Nat → Nat
  | .mk c d v, key =>
    if _h1 : key.length < d.length then I
    else if _h2 : key.take d.length ≠ d then I
    else if _h3 : key.length = d.length then v
    else
      match c with
      | none => I
      | some m =>
        match mfind (key.get ⟨d.length, by omega⟩) m with
        | none => I
        | some ch => ch.get_value (key.drop (d.length + 1))
termination_by nd key => key.length
decreasing_by simp [List.length_drop]; omega

/-- `Node::remove_key(key, length)`: exact-match walk; at the match, clear
`v_` to `I` and return the previous value; the updated node is the second
component (the source mutates in place). -/
def Node.remove_key : Node → List Nat → Nat × Node
  | .mk c d v, key =>
    if _h1 : key.length < d.length then (I, .mk c d v)
    else if _h2 : key.take d.length ≠ d then (I, .mk c d v)
    else if _h3 : key.length = d.length then (v, .mk c d I)
    else
      match c with
      | none => (I, .mk c d v)
      | some m =>
        match mfind (key.get ⟨d.length, by omega⟩) m with
        | none => (I, .mk (some m) d v)
        | some ch =>
          let p := ch.remove_key (key.drop (d.length + 1))
          (p.1, .mk (some (mset (key.get ⟨d.length, by omega⟩) p.2 m)) d v)
termination_by nd key => key.length
decreasing_by simp [List.length_drop]; omega

/-- `Node::get_values(buffer, length, values)`: common-prefix walk appending
to `values` the value of every terminal node whose accumulated key is a
prefix of `buffer`. -/
def Node.get_values : Node → List Nat → List Nat → List Nat
  | .mk c d v, buf, values =>
    if _h1 : buf.length < d.length then values
    else if _h2 : buf.take d.length ≠ d then values
    else
      let values1 := if v ≠ I then values ++ [v] else values
      if h3 : d.length < buf.length then
        match c with
        | none => values1
        | some m =>
          match mfind (buf.get ⟨d.length, h3⟩) m with
          | none => values1
          | some ch => ch.get_values (buf.drop (d.length + 1)) values1
      else values1
termination_by nd buf values => buf.length
decreasing_by simp [List.length_drop]; omega

/-- The `while` loop of `Node::Add`: index of the first mismatch between the
edge and the key (bounded by both lengths). -/
def commonLen : List Nat → List Nat → Nat
  | a :: as, b :: bs => if a = b then commonLen as bs + 1 else 0
  | _, _ => 0

/-- `Node::Add(node, key, length, value)`: merge `key ↦ value` into the
subtree `node` (null pointer = `none`), returning the new subtree root. -/
def Node.Add : Option Node → List Nat → Nat → Node
  | none, key, value => .mk none key value
  | some (.mk c d v), key, value =>
    let i := commonLen d key
    if _hi : i < min d.length key.length then
      -- 分離 (split): new non-terminal parent with edge `key.take i`,
      -- children: the old node cut by `i+1` under symbol `d_[i]`, and a new
      -- terminal node for the rest of `key` under symbol `key[i]`.
      .mk (some (mset (key.getD i 0) (.mk none (key.drop (i + 1)) value)
                   (mset (d.getD i 0) (.mk c (d.drop (i + 1)) v) [])))
        (key.take i) I
    else if _hl : d.length < key.length then
      -- 追加 (recurse): insert the rest of `key` into the child at `key[i]`.
      let c0 : Option Node :=
        match c with
        | some m => mfind (key.getD i 0) m
        | none => none
      let m0 : List (Nat × Node) := c.getD []
      .mk (some (mset (key.getD i 0) (Node.Add c0 (key.drop (i + 1)) value) m0)) d v
    else if _hs : key.length < d.length then
      -- 追加 (new parent): terminal node for `key`, old node cut by `i+1`
      -- under symbol `d_[i]`.
      .mk (some (mset (d.getD i 0) (.mk c (d.drop (i + 1)) v) [])) key value
    else
      -- 更新 (update): overwrite the value.
      .mk c d value
termination_by nd key value => key.length
decreasing_by simp [List.length_drop]; omega

/-- The trie container: `head_`, the map from a key's first symbol to the
root node of its subtree. -/
structure PatriciaTrie : Type where
  head_ : List (Nat × Node)

/-- `PatriciaTrie::add_key(key, length, value)`: dispatch on `key[0]`,
delegating `key + 1, length - 1` to `Node::Add`.  The empty key violates
`assert(0 < length)`; the model leaves the trie unchanged there. -/
def PatriciaTrie.add_key (t : PatriciaTrie) (key : List Nat) (value : Nat) :
    PatriciaTrie :=
  match key with
  | [] => t
  | k0 :: rest =>
    ⟨mset k0 (Node.Add I (mfind k0 t.head_) rest value) t.head_⟩

/-- `PatriciaTrie::remove_key(key, length)`: dispatch on `key[0]`; with no
root subtree the source executes `return false;`, which converts to the
value `0` of the unsigned value type.  The empty key violates
`assert(0 < length)`; the model returns `(0, t)` there. -/
def PatriciaTrie.remove_key (t : PatriciaTrie) (key : List Nat) :
    Nat × PatriciaTrie :=
  match key with
  | [] => (Bool.toNat false, t)
  | k0 :: rest =>
    match mfind k0 t.head_ with
    | none => (Bool.toNat false, t)
    | some nd =>
      let p := nd.remove_key I rest
      (p.1, ⟨mset k0 p.2 t.head_⟩)

/-- `PatriciaTrie::get_value(key, length)`: dispatch on `key[0]`; with no
root subtree the source executes `return false;` (value `0`). -/
def PatriciaTrie.get_value (t : PatriciaTrie) (key : List Nat) : Nat :=
  match key with
  | [] => Bool.toNat false
  | k0 :: rest =>
    match mfind k0 t.head_ with
    | none => Bool.toNat false
    | some nd => nd.get_value I rest

/-- `PatriciaTrie::get_values(buffer, length, values)`: dispatch on
`buffer[0]`, appending nothing when no root subtree matches. -/
def PatriciaTrie.get_values (t : PatriciaTrie) (buf : List Nat)
    (values : List Nat) : List Nat :=
  match buf with
  | [] => values
  | b0 :: rest =>
    match mfind b0 t.head_ with
    | none => values
    | some nd => nd.get_values I rest values

/-- `PatriciaTrie::find_key(key, length)`: literally
`get_value(key, length) != INVALID`. -/
def PatriciaTrie.find_key (t : PatriciaTrie) (key : List Nat) : Bool :=
  t.get_value I key != I

/-- Observable key set at node level: the suffix `s` is present when the
exact-match walk yields an actual value. -/
def Node.lookupOpt (nd : Node) (s : List Nat) : Option Nat :=
  if nd.get_value I s = I then none else some (nd.get_value I s)

/-- Observable key set of the trie: a nonempty key is present when its root
subtree exists and the node-level walk yields an actual value. -/
def PatriciaTrie.lookupOpt (t : PatriciaTrie) (k : List Nat) : Option Nat :=
  match k with
  | [] => none
  | k0 :: rest =>
    match mfind k0 t.head_ with
    | none => none
    | some nd => nd.lookupOpt I rest

/-- Child of a nullable child map at a symbol (null map has no children). -/
def childAt (c : Option (List (Nat × Node))) (k : Nat) : Option Node :=
  match c with
  | none => none
  | some m => mfind k m

/-- The structural skeleton of a node: the same tree of edge labels and
child-map entries with every terminal value erased.  Two nodes with equal
skeletons have exactly the same nodes, edges and child arrangement. -/
inductive Skel : Type where
  | mk (c : Option (List (Nat × Skel))) (d : List Nat) : Skel

mutual

/-- Erase every value field of a subtree, keeping its exact structure. -/
def Node.skel : Node → Skel
  | .mk none d _ => .mk none d
  | .mk (some m) d _ => .mk (some (skelList m)) d

/-- `Node.skel` mapped over a child map. -/
def skelList : List (Nat × Node) → List (Nat × Skel)
  | [] => []
  | (k, nd) :: r => (k, nd.skel) :: skelList r

end

/-- The structural skeleton of the whole trie: every root subtree's skeleton
keyed by its leading symbol. -/
def PatriciaTrie.skel (t : PatriciaTrie) : List (Nat × Skel) :=
  skelList t.head_

/-! ## Association-list (unordered_map) lemmas -/

theorem childAt_some (m : List (Nat × Node)) (k : Nat) :
    childAt (some m) k = mfind k m := rfl

theorem mfind_mset_self {α : Type} (k : Nat) (a : α) (m : List (Nat × α)) :
    mfind k (mset k a m) = some a := by
  induction m with
  | nil => simp [mfind, mset]
  | cons p r ih =>
    obtain ⟨k', b⟩ := p
    by_cases h : k' = k <;> simp [mfind, mset, h, ih]

theorem mfind_mset_ne {α : Type} (k k' : Nat) (a : α) (m : List (Nat × α))
    (h : k' ≠ k) : mfind k' (mset k a m) = mfind k' m := by
  have h' : ¬ k = k' := fun hh => h hh.symm
  induction m with
  | nil => simp [mfind, mset, h']
  | cons p r ih =>
    obtain ⟨k'', b⟩ := p
    by_cases h2 : k'' = k
    · subst h2
      simp [mfind, mset, h']
    · simp [mfind, mset, h2, ih]

/-! ## Common-prefix length lemmas -/

theorem commonLen_le (a b : List Nat) :
    commonLen a b ≤ min a.length b.length := by
  induction a generalizing b with
  | nil => simp [commonLen]
  | cons x as ih =>
    cases b with
    | nil => simp [commonLen]
    | cons y bs =>
      by_cases h : x = y
      · have := ih bs
        simp only [commonLen, if_pos h, List.length_cons]
        omega
      · simp [commonLen, h]

theorem commonLen_comm (a b : List Nat) : commonLen a b = commonLen b a := by
  induction a generalizing b with
  | nil => cases b <;> simp [commonLen]
  | cons x as ih =>
    cases b with
    | nil => simp [commonLen]
    | cons y bs =>
      by_cases h : x = y
      · simp [commonLen, h, ih bs]
      · have h' : ¬ y = x := fun hh => h hh.symm
        simp [commonLen, h, h']

theorem take_commonLen_eq (a b : List Nat) :
    a.take (commonLen a b) = b.take (commonLen a b) := by
  induction a generalizing b with
  | nil => cases b <;> simp [commonLen]
  | cons x as ih =>
    cases b with
    | nil => simp [commonLen]
    | cons y bs =>
      by_cases h : x = y
      · simp [commonLen, h, ih bs]
      · simp [commonLen, h]

theorem commonLen_eq_of_take (a b : List Nat) (h : b.take a.length = a) :
    commonLen a b = a.length := by
  induction a generalizing b with
  | nil => simp [commonLen]
  | cons x as ih =>
    cases b with
    | nil => simp at h
    | cons y bs =>
      simp only [List.length_cons, List.take_succ_cons, List.cons.injEq] at h
      simp [commonLen, h.1.symm, ih bs h.2]

theorem getD_ne_of_commonLen_lt (a b : List Nat)
    (h : commonLen a b < min a.length b.length) :
    a.getD (commonLen a b) 0 ≠ b.getD (commonLen a b) 0 := by
  induction a generalizing b with
  | nil => simp at h
  | cons x as ih =>
    cases b with
    | nil => simp at h
    | cons y bs =>
      by_cases hxy : x = y
      · have hlt : commonLen as bs < min as.length bs.length := by
          have := h
          simp only [commonLen, if_pos hxy, List.length_cons] at this
          omega
        simpa [commonLen, hxy] using ih bs hlt
      · simp [commonLen, hxy]

/-! ## Characterizations of the `Node` operations, one per source branch -/

theorem get_value_not_pre (c : Option (List (Nat × Node))) (d key : List Nat)
    (v : Nat) (h : key.take d.length ≠ d) :
    (Node.mk c d v).get_value I key = I := by
  rw [Node.get_value]
  rcases Nat.lt_or_ge key.length d.length with h1 | h1
  · simp [h1]
  · simp [Nat.not_lt.mpr h1, h]

theorem get_value_exact (c : Option (List (Nat × Node))) (d key : List Nat)
    (v : Nat) (hp : key.take d.length = d) (hl : key.length = d.length) :
    (Node.mk c d v).get_value I key = v := by
  rw [Node.get_value]
  simp [hp, hl]

theorem get_value_step (c : Option (List (Nat × Node))) (d key : List Nat)
    (v : Nat) (hp : key.take d.length = d) (hl : d.length < key.length) :
    (Node.mk c d v).get_value I key =
      match childAt c key[d.length] with
      | none => I
      | some ch => ch.get_value I (key.drop (d.length + 1)) := by
  rw [Node.get_value]
  have h1 : ¬ key.length < d.length := by omega
  have h3 : ¬ key.length = d.length := by omega
  simp [h1, hp, h3]
  cases c with
  | none => simp [childAt]
  | some m => simp [childAt]

theorem remove_key_not_pre (c : Option (List (Nat × Node))) (d key : List Nat)
    (v : Nat) (h : key.take d.length ≠ d) :
    (Node.mk c d v).remove_key I key = (I, Node.mk c d v) := by
  rw [Node.remove_key]
  rcases Nat.lt_or_ge key.length d.length with h1 | h1
  · simp [h1]
  · simp [Nat.not_lt.mpr h1, h]

theorem remove_key_exact (c : Option (List (Nat × Node))) (d key : List Nat)
    (v : Nat) (hp : key.take d.length = d) (hl : key.length = d.length) :
    (Node.mk c d v).remove_key I key = (v, Node.mk c d I) := by
  rw [Node.remove_key]
  simp [hp, hl]

theorem remove_key_step (c : Option (List (Nat × Node))) (d key : List Nat)
    (v : Nat) (hp : key.take d.length = d) (hl : d.length < key.length) :
    (Node.mk c d v).remove_key I key =
      match childAt c key[d.length] with
      | none => (I, Node.mk c d v)
      | some ch =>
        ((ch.remove_key I (key.drop (d.length + 1))).1,
          Node.mk
            (some (mset key[d.length] (ch.remove_key I (key.drop (d.length + 1))).2
              (c.getD []))) d v) := by
  rw [Node.remove_key]
  have h1 : ¬ key.length < d.length := by omega
  have h3 : ¬ key.length = d.length := by omega
  simp [h1, hp, h3]
  cases c with
  | none => simp [childAt]
  | some m =>
    cases hf : mfind key[d.length] m <;> simp [childAt, hf]

theorem get_values_not_pre (c : Option (List (Nat × Node))) (d buf : List Nat)
    (v : Nat) (values : List Nat) (h : buf.take d.length ≠ d) :
    (Node.mk c d v).get_values I buf values = values := by
  rw [Node.get_values]
  rcases Nat.lt_or_ge buf.length d.length with h1 | h1
  · simp [h1]
  · simp [Nat.not_lt.mpr h1, h]

theorem get_values_exact (c : Option (List (Nat × Node))) (d buf : List Nat)
    (v : Nat) (values : List Nat) (hp : buf.take d.length = d)
    (hl : buf.length = d.length) :
    (Node.mk c d v).get_values I buf values =
      (if v ≠ I then values ++ [v] else values) := by
  rw [Node.get_values]
  have h3 : ¬ d.length < buf.length := by omega
  simp [Nat.not_lt.mpr (Nat.le_of_eq hl.symm), hp, h3]

theorem get_values_step (c : Option (List (Nat × Node))) (d buf : List Nat)
    (v : Nat) (values : List Nat) (hp : buf.take d.length = d)
    (hl : d.length < buf.length) :
    (Node.mk c d v).get_values I buf values =
      (match childAt c buf[d.length] with
       | none => (if v ≠ I then values ++ [v] else values)
       | some ch =>
         ch.get_values I (buf.drop (d.length + 1))
           (if v ≠ I then values ++ [v] else values)) := by
  rw [Node.get_values]
  have h1 : ¬ buf.length < d.length := by omega
  simp [h1, hp, hl]
  cases c with
  | none => simp [childAt]
  | some m => simp [childAt]

/-! ## Characterizations of `Node::Add`, one per source branch -/

theorem Add_absent (key : List Nat) (value : Nat) :
    Node.Add I none key value = Node.mk none key value := by
  rw [Node.Add.eq_def]

theorem Add_split (c : Option (List (Nat × Node))) (d key : List Nat)
    (v value : Nat) (hi : commonLen d key < min d.length key.length) :
    Node.Add I (some (Node.mk c d v)) key value =
      Node.mk
        (some (mset (key.getD (commonLen d key) 0)
          (Node.mk none (key.drop (commonLen d key + 1)) value)
          (mset (d.getD (commonLen d key) 0)
            (Node.mk c (d.drop (commonLen d key + 1)) v) [])))
        (key.take (commonLen d key)) I := by
  rw [Node.Add.eq_def]
  simp [hi]

theorem Add_deeper (c : Option (List (Nat × Node))) (d key : List Nat)
    (v value : Nat) (hp : key.take d.length = d) (hl : d.length < key.length) :
    Node.Add I (some (Node.mk c d v)) key value =
      Node.mk
        (some (mset (key.getD d.length 0)
          (Node.Add I (childAt c (key.getD d.length 0))
            (key.drop (d.length + 1)) value)
          (c.getD []))) d v := by
  have hcl : commonLen d key = d.length := commonLen_eq_of_take d key hp
  rw [Node.Add.eq_def]
  have hi : ¬ commonLen d key < min d.length key.length := by omega
  simp only [hcl, hi, dite_false, dif_neg, hl, dite_true, dif_pos]
  cases c with
  | none => simp [childAt]
  | some m => simp [childAt]

theorem Add_shorter (c : Option (List (Nat × Node))) (d key : List Nat)
    (v value : Nat) (hp : d.take key.length = key) (hl : key.length < d.length) :
    Node.Add I (some (Node.mk c d v)) key value =
      Node.mk
        (some (mset (d.getD key.length 0)
          (Node.mk c (d.drop (key.length + 1)) v) [])) key value := by
  have hcl : commonLen d key = key.length := by
    rw [commonLen_comm]; exact commonLen_eq_of_take key d hp
  rw [Node.Add.eq_def]
  have hi : ¬ commonLen d key < min d.length key.length := by omega
  have hl2 : ¬ d.length < key.length := by omega
  simp [hcl, hi, hl2, hl]

theorem Add_update (c : Option (List (Nat × Node))) (d : List Nat)
    (v value : Nat) :
    Node.Add I (some (Node.mk c d v)) d value = Node.mk c d value := by
  have hcl : commonLen d d = d.length :=
    commonLen_eq_of_take d d (List.take_length d)
  rw [Node.Add.eq_def]
  have hi : ¬ commonLen d d < min d.length d.length := by omega
  simp [hcl, hi]

/-! ## Round-trip at node level -/

/-- Inserting a suffix into a subtree and looking the same suffix up yields
the inserted value (for any prior subtree shape). -/
theorem Add_get_value (node : Option Node) (key : List Nat) (value : Nat) :
    (Node.Add I node key value).get_value I key = value := by
  match node with
  | none =>
    rw [Add_absent]
    exact get_value_exact I none key key value (by rw [List.take_length]) rfl
  | some (.mk c d v) =>
    have hle := commonLen_le d key
    rcases Nat.lt_or_ge (commonLen d key) (min d.length key.length) with hi | hi
    · -- split branch
      have hik : commonLen d key < key.length := by omega
      have hid : commonLen d key < d.length := by omega
      rw [Add_split I c d key v value hi]
      have hlen : (key.take (commonLen d key)).length = commonLen d key := by
        rw [List.length_take]; omega
      rw [get_value_step I _ _ key I (by rw [hlen]) (by omega)]
      simp only [hlen, childAt, List.getD_eq_getElem key 0 hik,
        List.getD_eq_getElem d 0 hid, mfind_mset_self]
      exact get_value_exact I none _ _ value (by rw [List.take_length]) rfl
    · have hieq : commonLen d key = min d.length key.length := by omega
      rcases Nat.lt_trichotomy d.length key.length with hl | hl | hl
      · -- recurse branch
        have hi2 : commonLen d key = d.length := by omega
        have hp : key.take d.length = d := by
          have := take_commonLen_eq d key
          rw [hi2] at this
          rw [← this, List.take_length]
        rw [Add_deeper I c d key v value hp hl]
        rw [get_value_step I _ d key v hp hl]
        simp only [childAt, List.getD_eq_getElem key 0 hl, mfind_mset_self]
        exact Add_get_value (childAt c key[d.length]) (key.drop (d.length + 1))
          value
      · -- update branch
        have hi2 : commonLen d key = d.length := by omega
        have hdk : d = key := by
          have h := take_commonLen_eq d key
          rw [hi2, List.take_length, hl, List.take_length] at h
          exact h
        subst hdk
        rw [Add_update]
        exact get_value_exact I c d d value (by rw [List.take_length]) rfl
      · -- new-parent branch
        have hi2 : commonLen d key = key.length := by omega
        have hp : d.take key.length = key := by
          have := take_commonLen_eq d key
          rw [hi2] at this
          rw [this, List.take_length]
        rw [Add_shorter I c d key v value hp hl]
        exact get_value_exact I _ key key value (by rw [List.take_length]) rfl
termination_by key.length
decreasing_by simp [List.length_drop]; omega

/-- C1: Round-trip.  For every trie state, every non-empty key `k` and every
value `v ≠ INVALID`, immediately after `add_key(k, v)` both
`get_value(k) = v` and `find_key(k) = true`. -/
theorem C1_round_trip (t : PatriciaTrie) (key : List Nat) (value : Nat)
    (hk : key ≠ []) (hv : value ≠ I) :
    (t.add_key I key value).get_value I key = value ∧
      (t.add_key I key value).find_key I key = true := by
  match key with
  | [] => exact absurd rfl hk
  | k0 :: rest =>
    have hg : (t.add_key I (k0 :: rest) value).get_value I (k0 :: rest)
        = value := by
      simp only [PatriciaTrie.add_key, PatriciaTrie.get_value,
        mfind_mset_self]
      exact Add_get_value I (mfind k0 t.head_) rest value
    refine ⟨hg, ?_⟩
    simp [PatriciaTrie.find_key, hg, hv]

/-- Witness for C1 at a concrete input. -/
theorem C1_round_trip_witness :
    (([2, 3] : List Nat) ≠ [] ∧ (5 : Nat) ≠ 9) ∧
      ((⟨[]⟩ : PatriciaTrie).add_key 9 [2, 3] 5).get_value 9 [2, 3] = 5 ∧
      ((⟨[]⟩ : PatriciaTrie).add_key 9 [2, 3] 5).find_key 9 [2, 3] = true :=
  ⟨⟨by decide, by decide⟩,
    C1_round_trip 9 ⟨[]⟩ [2, 3] 5 (by decide) (by decide)⟩

theorem mset_mset_self {α : Type} (k : Nat) (a b : α) (m : List (Nat × α)) :
    mset k a (mset k b m) = mset k a m := by
  induction m with
  | nil => simp [mset]
  | cons p r ih =>
    obtain ⟨k', x⟩ := p
    by_cases h : k' = k <;> simp [mset, h, ih]

/-- The first two source guards of the traversal functions coincide: an edge
that is an initial segment of the key forces the key to be at least as long. -/
theorem length_le_of_take_eq (d key : List Nat) (h : key.take d.length = d) :
    d.length ≤ key.length := by
  have := congrArg List.length h
  rw [List.length_take] at this
  omega

/-- C9: `find_key` is literally the comparison of `get_value` with the
reserved invalid value: it returns `true` exactly when `get_value` differs
from `INVALID`. -/
theorem C9_find_key_iff (t : PatriciaTrie) (key : List Nat) (hk : key ≠ []) :
    (t.find_key I key = true ↔ t.get_value I key ≠ I) := by
  simp [PatriciaTrie.find_key]

/-- Witness for C9 at a concrete input. -/
theorem C9_find_key_iff_witness :
    (([4] : List Nat) ≠ []) ∧
      (((⟨[]⟩ : PatriciaTrie).find_key 9 [4] = true ↔
        (⟨[]⟩ : PatriciaTrie).get_value 9 [4] ≠ 9)) :=
  ⟨by decide, C9_find_key_iff 9 ⟨[]⟩ [4] (by decide)⟩

/-- C2 (code bug): with the default sentinel of the driver's instantiation
(`INVALID = ~0u = 4294967295`), looking up or removing a key whose first
symbol has no root subtree returns `(VTYPE)false = 0`, not `INVALID` — the
source's `return false;` contradicts the functions' own documentation
(`@note キーが見つからなかった場合は INVALID が返却される`).  The structure is
indeed left unchanged. -/
theorem C2_missing_root_returns_zero :
    (⟨[]⟩ : PatriciaTrie).get_value 4294967295 [65] = 0 ∧
      ((⟨[]⟩ : PatriciaTrie).remove_key 4294967295 [65]).1 = 0 ∧
      ((⟨[]⟩ : PatriciaTrie).remove_key 4294967295 [65]).2 = ⟨[]⟩ ∧
      (0 : Nat) ≠ 4294967295 :=
  ⟨rfl, rfl, rfl, by decide⟩

/-- C8 (code bug): removing an absent key whose first symbol has no root
subtree returns `0` rather than `INVALID` (same `return false;` slip); the
trie is left unchanged, and the key is indeed absent. -/
theorem C8_remove_absent_missing_root :
    (⟨[]⟩ : PatriciaTrie).lookupOpt 4294967295 [66] = none ∧
      ((⟨[]⟩ : PatriciaTrie).remove_key 4294967295 [66]).1 = 0 ∧
      ((⟨[]⟩ : PatriciaTrie).remove_key 4294967295 [66]).2 = ⟨[]⟩ ∧
      (0 : Nat) ≠ 4294967295 :=
  ⟨rfl, rfl, rfl, by decide⟩

/-! ## `get_values` only appends -/

/-- Node level: `get_values` appends to the caller's sequence and never
touches its prior contents. -/
theorem get_values_append (nd : Node) (buf acc : List Nat) :
    nd.get_values I buf acc = acc ++ nd.get_values I buf [] := by
  match nd with
  | .mk c d v =>
    by_cases hp : buf.take d.length = d
    · rcases Nat.lt_or_ge d.length buf.length with hl | hl
      · rw [get_values_step I c d buf v acc hp hl,
          get_values_step I c d buf v [] hp hl]
        cases hc : childAt c buf[d.length] with
        | none => by_cases hv : v ≠ I <;> simp [hv]
        | some ch =>
          simp only
          rw [get_values_append ch (buf.drop (d.length + 1)) _,
            get_values_append ch (buf.drop (d.length + 1))
              (if v ≠ I then [] ++ [v] else [])]
          by_cases hv : v ≠ I <;> simp [hv]
      · have hl2 : buf.length = d.length :=
          Nat.le_antisymm hl (length_le_of_take_eq d buf hp)
        rw [get_values_exact I c d buf v acc hp hl2,
          get_values_exact I c d buf v [] hp hl2]
        by_cases hv : v ≠ I <;> simp [hv]
    · rw [get_values_not_pre I c d buf v acc hp,
        get_values_not_pre I c d buf v [] hp]
      simp
termination_by buf.length
decreasing_by all_goals simp [List.length_drop]; omega

/-- C10: `get_values(q, out)` only appends: the output sequence equals its
prior contents followed by the newly matched values (computed independently
of the prior contents); the trie itself is a `const` input and is not
mutated (the model is a pure function of it). -/
theorem C10_get_values_only_appends (t : PatriciaTrie) (buf acc : List Nat)
    (hb : buf ≠ []) :
    t.get_values I buf acc = acc ++ t.get_values I buf [] := by
  match buf with
  | b0 :: rest =>
    simp only [PatriciaTrie.get_values]
    cases mfind b0 t.head_ with
    | none => simp
    | some nd => exact get_values_append I nd rest acc

/-- Witness for C10 at a concrete input. -/
theorem C10_get_values_only_appends_witness :
    (([2, 3] : List Nat) ≠ []) ∧
      ((⟨[]⟩ : PatriciaTrie).add_key 9 [2, 3] 5).get_values 9 [2, 3] [7, 8] =
        [7, 8] ++ ((⟨[]⟩ : PatriciaTrie).add_key 9 [2, 3] 5).get_values 9
          [2, 3] [] :=
  ⟨by decide,
    C10_get_values_only_appends 9 ((⟨[]⟩ : PatriciaTrie).add_key 9 [2, 3] 5)
      [2, 3] [7, 8] (by decide)⟩

/-- C5: divergence split.  When the common-prefix scan stops strictly before
both the edge and the suffix are exhausted, the result is a fresh
non-terminal branch node whose edge is the shared prefix of length `i`, with
exactly two children: the existing node (children and value intact) stripped
to `d.drop (i+1)` under map key `d[i]`, and a brand-new terminal node
carrying `key.drop (i+1)` under map key `key[i]`; the branch node is the
returned subtree root, and the two map keys are the distinct divergent
symbols. -/
theorem C5_divergence_split (c : Option (List (Nat × Node)))
    (d key : List Nat) (v value : Nat)
    (hi : commonLen d key < min d.length key.length) :
    Node.Add I (some (Node.mk c d v)) key value =
      Node.mk
        (some [(d.getD (commonLen d key) 0,
                  Node.mk c (d.drop (commonLen d key + 1)) v),
               (key.getD (commonLen d key) 0,
                  Node.mk none (key.drop (commonLen d key + 1)) value)])
        (key.take (commonLen d key)) I ∧
      d.take (commonLen d key) = key.take (commonLen d key) ∧
      (key.take (commonLen d key)).length = commonLen d key ∧
      d.getD (commonLen d key) 0 ≠ key.getD (commonLen d key) 0 := by
  have hne := getD_ne_of_commonLen_lt d key hi
  refine ⟨?_, take_commonLen_eq d key, by rw [List.length_take]; omega, hne⟩
  rw [Add_split I c d key v value hi]
  simp only [mset]
  rw [if_neg hne]

/-- Witness for C5 at a concrete input. -/
theorem C5_divergence_split_witness :
    commonLen [1, 2, 3] [1, 2, 9, 9] < min 3 4 ∧
      (Node.Add 9 (some (Node.mk none [1, 2, 3] 7)) [1, 2, 9, 9] 8 =
        Node.mk
          (some [(3, Node.mk none [] 7), (9, Node.mk none [9] 8)]) [1, 2] 9 ∧
        ([1, 2, 3] : List Nat).take (commonLen [1, 2, 3] [1, 2, 9, 9]) =
          ([1, 2, 9, 9] : List Nat).take (commonLen [1, 2, 3] [1, 2, 9, 9]) ∧
        (([1, 2, 9, 9] : List Nat).take
          (commonLen [1, 2, 3] [1, 2, 9, 9])).length =
            commonLen [1, 2, 3] [1, 2, 9, 9] ∧
        ([1, 2, 3] : List Nat).getD (commonLen [1, 2, 3] [1, 2, 9, 9]) 0 ≠
          ([1, 2, 9, 9] : List Nat).getD (commonLen [1, 2, 3] [1, 2, 9, 9])
            0) := by
  have h := C5_divergence_split 9 none [1, 2, 3] [1, 2, 9, 9] 7 8 (by decide)
  exact ⟨by decide, by simpa [commonLen] using h⟩

/-! ## Removal lemmas -/

/-- After `remove_key(key)`, the same key no longer resolves to a value
(node level; holds whether or not the key was present). -/
theorem remove_get_value_self (nd : Node) (key : List Nat) :
    ((nd.remove_key I key).2).get_value I key = I := by
  match nd with
  | .mk c d v =>
    by_cases hp : key.take d.length = d
    · rcases Nat.lt_or_ge d.length key.length with hl | hl
      · rw [remove_key_step I c d key v hp hl]
        cases hc : childAt c key[d.length] with
        | none =>
          simp only
          rw [get_value_step I c d key v hp hl, hc]
        | some ch =>
          simp only
          cases c with
          | none => simp [childAt] at hc
          | some m =>
            simp only [childAt] at hc
            simp only [Option.getD_some]
            rw [get_value_step I _ d key v hp hl]
            simp only [childAt, mfind_mset_self]
            exact remove_get_value_self ch (key.drop (d.length + 1))
      · have hl2 : key.length = d.length := by
          have := length_le_of_take_eq d key hp
          omega
        rw [remove_key_exact I c d key v hp hl2]
        exact get_value_exact I c d key I hp hl2
    · rw [remove_key_not_pre I c d key v hp]
      exact get_value_not_pre I c d key v hp
termination_by key.length
decreasing_by simp [List.length_drop]; omega

/-- `remove_key(key)` changes the lookup result of no other key
(node level). -/
theorem remove_get_value_frame (nd : Node) (key key' : List Nat)
    (hne : key' ≠ key) :
    ((nd.remove_key I key).2).get_value I key' = nd.get_value I key' := by
  match nd with
  | .mk c d v =>
    by_cases hp : key.take d.length = d
    · rcases Nat.lt_or_ge d.length key.length with hl | hl
      · -- key walks into a child
        rw [remove_key_step I c d key v hp hl]
        cases hc : childAt c key[d.length] with
        | none => simp only
        | some ch =>
          simp only
          cases c with
          | none => simp [childAt] at hc
          | some m =>
            simp only [childAt] at hc
            simp only [Option.getD_some]
            by_cases hp' : key'.take d.length = d
            · rcases Nat.lt_or_ge d.length key'.length with hl' | hl'
              · rw [get_value_step I _ d key' v hp' hl',
                  get_value_step I (some m) d key' v hp' hl']
                simp only [childAt]
                by_cases hk0 : key'[d.length] = key[d.length]
                · rw [hk0, mfind_mset_self, hc]
                  simp only
                  refine remove_get_value_frame ch
                    (key.drop (d.length + 1)) (key'.drop (d.length + 1)) ?_
                  intro hr
                  apply hne
                  have e1 : key' =
                      key'.take d.length ++
                        key'[d.length] :: key'.drop (d.length + 1) := by
                    rw [← List.drop_eq_getElem_cons hl', List.take_append_drop]
                  have e2 : key =
                      key.take d.length ++
                        key[d.length] :: key.drop (d.length + 1) := by
                    rw [← List.drop_eq_getElem_cons hl, List.take_append_drop]
                  rw [e1, e2, hp', hp, hk0, hr]
                · rw [mfind_mset_ne _ _ _ _ hk0]
              · have hl2' : key'.length = d.length := by
                  have := length_le_of_take_eq d key' hp'
                  omega
                rw [get_value_exact I _ d key' v hp' hl2',
                  get_value_exact I (some m) d key' v hp' hl2']
            · rw [get_value_not_pre I _ d key' v hp',
                get_value_not_pre I (some m) d key' v hp']
      · -- key ends exactly at this node
        have hl2 : key.length = d.length := by
          have := length_le_of_take_eq d key hp
          omega
        have hkd : key = d := by rw [← hp, ← hl2, List.take_length]
        rw [remove_key_exact I c d key v hp hl2]
        by_cases hp' : key'.take d.length = d
        · rcases Nat.lt_or_ge d.length key'.length with hl' | hl'
          · rw [get_value_step I c d key' I hp' hl',
              get_value_step I c d key' v hp' hl']
          · exfalso
            apply hne
            have hl2' : key'.length = d.length := by
              have := length_le_of_take_eq d key' hp'
              omega
            have : key' = d := by rw [← hp', ← hl2', List.take_length]
            rw [this, hkd]
        · rw [get_value_not_pre I c d key' I hp',
            get_value_not_pre I c d key' v hp']
    · rw [remove_key_not_pre I c d key v hp]
termination_by key.length
decreasing_by simp [List.length_drop]; omega

/-- C4: Deletion.  After `remove_key(k)` on a previously inserted key `k`,
`get_value(k) = INVALID` and `find_key(k) = false`, while every other key —
in particular every longer key having `k` as a prefix — still resolves to
its original value. -/
theorem C4_deletion (t : PatriciaTrie) (key : List Nat) (w : Nat)
    (hp : t.lookupOpt I key = some w) :
    ((t.remove_key I key).2.get_value I key = I ∧
      (t.remove_key I key).2.find_key I key = false) ∧
    ∀ key', key' ≠ key →
      (t.remove_key I key).2.lookupOpt I key' = t.lookupOpt I key' := by
  match key with
  | [] => simp [PatriciaTrie.lookupOpt] at hp
  | k0 :: rest =>
    cases hf : mfind k0 t.head_ with
    | none => simp [PatriciaTrie.lookupOpt, hf] at hp
    | some nd =>
      have hrem : t.remove_key I (k0 :: rest) =
          ((nd.remove_key I rest).1,
            ⟨mset k0 (nd.remove_key I rest).2 t.head_⟩) := by
        simp [PatriciaTrie.remove_key, hf]
      refine ⟨⟨?_, ?_⟩, ?_⟩
      · rw [hrem]
        simp only [PatriciaTrie.get_value, mfind_mset_self]
        exact remove_get_value_self I nd rest
      · rw [hrem]
        simp only [PatriciaTrie.find_key, PatriciaTrie.get_value,
          mfind_mset_self]
        simp [remove_get_value_self I nd rest]
      · intro key' hne
        rw [hrem]
        match key' with
        | [] => simp [PatriciaTrie.lookupOpt]
        | k0' :: rest' =>
          simp only [PatriciaTrie.lookupOpt]
          by_cases hk : k0' = k0
          · subst hk
            simp only [mfind_mset_self, hf]
            have hr : rest' ≠ rest := by
              intro h
              exact hne (by rw [h])
            simp only [Node.lookupOpt,
              remove_get_value_frame I nd rest rest' hr]
          · rw [mfind_mset_ne k0 k0' _ _ hk]

/-- Witness for C4 at a concrete input: two keys, one a prefix of the
other; removing the shorter leaves the longer intact. -/
theorem C4_deletion_witness :
    (((⟨[]⟩ : PatriciaTrie).add_key 9 [1, 2] 5).add_key 9 [1, 2, 3]
        6).lookupOpt 9 [1, 2] = some 5 ∧
      (((((⟨[]⟩ : PatriciaTrie).add_key 9 [1, 2] 5).add_key 9 [1, 2, 3]
          6).remove_key 9 [1, 2]).2.get_value 9 [1, 2] = 9 ∧
        ((((⟨[]⟩ : PatriciaTrie).add_key 9 [1, 2] 5).add_key 9 [1, 2, 3]
          6).remove_key 9 [1, 2]).2.find_key 9 [1, 2] = false) ∧
      ((((⟨[]⟩ : PatriciaTrie).add_key 9 [1, 2] 5).add_key 9 [1, 2, 3]
          6).remove_key 9 [1, 2]).2.lookupOpt 9 [1, 2, 3] =
        (((⟨[]⟩ : PatriciaTrie).add_key 9 [1, 2] 5).add_key 9 [1, 2, 3]
          6).lookupOpt 9 [1, 2, 3] := by
  have hmem : (((⟨[]⟩ : PatriciaTrie).add_key 9 [1, 2] 5).add_key 9 [1, 2, 3]
      6).lookupOpt 9 [1, 2] = some 5 := by
    simp [PatriciaTrie.add_key, PatriciaTrie.lookupOpt, Node.lookupOpt,
      Node.Add, Node.get_value, mfind, mset, commonLen]
  have h := C4_deletion 9
    (((⟨[]⟩ : PatriciaTrie).add_key 9 [1, 2] 5).add_key 9 [1, 2, 3] 6)
    [1, 2] 5 hmem
  exact ⟨hmem, h.1, h.2 [1, 2, 3] (by decide)⟩

/-! ## Removal never touches the structure -/

/-- Replacing a present entry by a node with the same skeleton keeps the
skeleton of the whole child map. -/
theorem skelList_mset (k : Nat) (m : List (Nat × Node)) (x y : Node)
    (hf : mfind k m = some x) (h : y.skel = x.skel) :
    skelList (mset k y m) = skelList m := by
  induction m with
  | nil => simp [mfind] at hf
  | cons p r ih =>
    obtain ⟨k', a⟩ := p
    by_cases hk : k' = k
    · subst hk
      have ha : a = x := by simpa [mfind] using hf
      simp [mset, skelList, h, ha]
    · simp only [mfind, if_neg hk] at hf
      simp [mset, skelList, hk, ih hf]

/-- `remove_key` preserves the skeleton exactly: no node is removed,
re-parented or merged, and every edge label and child map survives
unchanged (node level). -/
theorem remove_skel (nd : Node) (key : List Nat) :
    ((nd.remove_key I key).2).skel = nd.skel := by
  match nd with
  | .mk c d v =>
    by_cases hp : key.take d.length = d
    · rcases Nat.lt_or_ge d.length key.length with hl | hl
      · rw [remove_key_step I c d key v hp hl]
        cases hc : childAt c key[d.length] with
        | none => simp only
        | some ch =>
          simp only
          cases c with
          | none => simp [childAt] at hc
          | some m =>
            simp only [childAt] at hc
            simp only [Option.getD_some, Node.skel]
            rw [skelList_mset key[d.length] m ch _ hc
              (remove_skel ch (key.drop (d.length + 1)))]
      · have hl2 : key.length = d.length := by
          have := length_le_of_take_eq d key hp
          omega
        rw [remove_key_exact I c d key v hp hl2]
        cases c <;> simp [Node.skel]
    · rw [remove_key_not_pre I c d key v hp]
termination_by key.length
decreasing_by simp [List.length_drop]; omega

/-- C7: No edge merging on removal.  `remove_key(k)` leaves the skeleton of
the trie — every node, every edge label, every child map — exactly as it
was (so no node is deallocated, re-parented, or merged with its child, even
if left non-terminal with a single child); only the terminal value at the
node where `k` ends is cleared, and no other key's value changes. -/
theorem C7_no_edge_merging (t : PatriciaTrie) (key : List Nat)
    (hk : key ≠ []) :
    (t.remove_key I key).2.skel = t.skel ∧
    (t.remove_key I key).2.lookupOpt I key = none ∧
    ∀ key', key' ≠ key →
      (t.remove_key I key).2.lookupOpt I key' = t.lookupOpt I key' := by
  match key with
  | [] => exact absurd rfl hk
  | k0 :: rest =>
    cases hf : mfind k0 t.head_ with
    | none =>
      have hrem : t.remove_key I (k0 :: rest) = (Bool.toNat false, t) := by
        simp [PatriciaTrie.remove_key, hf]
      rw [hrem]
      exact ⟨rfl, by simp [PatriciaTrie.lookupOpt, hf], fun _ _ => rfl⟩
    | some nd =>
      have hrem : t.remove_key I (k0 :: rest) =
          ((nd.remove_key I rest).1,
            ⟨mset k0 (nd.remove_key I rest).2 t.head_⟩) := by
        simp [PatriciaTrie.remove_key, hf]
      rw [hrem]
      refine ⟨?_, ?_, ?_⟩
      · simp only [PatriciaTrie.skel]
        exact skelList_mset k0 t.head_ nd _ hf (remove_skel I nd rest)
      · simp only [PatriciaTrie.lookupOpt, mfind_mset_self, Node.lookupOpt,
          remove_get_value_self I nd rest]
        simp
      · intro key' hne
        match key' with
        | [] => simp [PatriciaTrie.lookupOpt]
        | k0' :: rest' =>
          simp only [PatriciaTrie.lookupOpt]
          by_cases hkk : k0' = k0
          · subst hkk
            simp only [mfind_mset_self, hf]
            have hr : rest' ≠ rest := by
              intro h
              exact hne (by rw [h])
            simp only [Node.lookupOpt,
              remove_get_value_frame I nd rest rest' hr]
          · rw [mfind_mset_ne k0 k0' _ _ hkk]

/-- Witness for C7 at a concrete input. -/
theorem C7_no_edge_merging_witness :
    (([1, 2] : List Nat) ≠ []) ∧
      ((((⟨[]⟩ : PatriciaTrie).add_key 9 [1, 2] 5).add_key 9 [1, 2, 3]
          6).remove_key 9 [1, 2]).2.skel =
        (((⟨[]⟩ : PatriciaTrie).add_key 9 [1, 2] 5).add_key 9 [1, 2, 3]
          6).skel ∧
      ((((⟨[]⟩ : PatriciaTrie).add_key 9 [1, 2] 5).add_key 9 [1, 2, 3]
          6).remove_key 9 [1, 2]).2.lookupOpt 9 [1, 2] = none ∧
      ((((⟨[]⟩ : PatriciaTrie).add_key 9 [1, 2] 5).add_key 9 [1, 2, 3]
          6).remove_key 9 [1, 2]).2.lookupOpt 9 [1, 2, 3] =
        (((⟨[]⟩ : PatriciaTrie).add_key 9 [1, 2] 5).add_key 9 [1, 2, 3]
          6).lookupOpt 9 [1, 2, 3] := by
  have h := C7_no_edge_merging 9
    (((⟨[]⟩ : PatriciaTrie).add_key 9 [1, 2] 5).add_key 9 [1, 2, 3] 6)
    [1, 2] (by decide)
  exact ⟨by decide, h.1, h.2.1, h.2.2 [1, 2, 3] (by decide)⟩

/-! ## Re-insertion overwrites in place -/

/-- Inserting the same suffix twice yields the very subtree obtained by
inserting the second value once: the second insertion only overwrites the
stored value and creates no structural entry (node level). -/
theorem Add_Add_same (node : Option Node) (key : List Nat) (v1 v2 : Nat) :
    Node.Add I (some (Node.Add I node key v1)) key v2 =
      Node.Add I node key v2 := by
  match node with
  | none =>
    rw [Add_absent, Add_update, Add_absent]
  | some (.mk c d v) =>
    have hle := commonLen_le d key
    rcases Nat.lt_or_ge (commonLen d key) (min d.length key.length) with hi | hi
    · -- split; the re-insertion walks into the fresh terminal child
      have hik : commonLen d key < key.length := by omega
      rw [Add_split I c d key v v1 hi]
      have hlen : (key.take (commonLen d key)).length = commonLen d key := by
        rw [List.length_take]; omega
      rw [Add_deeper I _ _ key I v2 (by rw [hlen]) (by omega)]
      simp only [hlen, childAt_some, Option.getD_some, mfind_mset_self]
      rw [Add_update, mset_mset_self, Add_split I c d key v v2 hi]
    · rcases Nat.lt_trichotomy d.length key.length with hl | hl | hl
      · -- recurse into the same child twice
        have hi2 : commonLen d key = d.length := by omega
        have hp : key.take d.length = d := by
          have h := take_commonLen_eq d key
          rw [hi2] at h
          rw [← h, List.take_length]
        rw [Add_deeper I c d key v v1 hp hl]
        rw [Add_deeper I _ d key v v2 hp hl]
        simp only [childAt_some, Option.getD_some, mfind_mset_self]
        rw [Add_Add_same (childAt c (key.getD d.length 0))
          (key.drop (d.length + 1)) v1 v2]
        rw [mset_mset_self, Add_deeper I c d key v v2 hp hl]
      · -- exact match: both insertions are plain updates
        have hi2 : commonLen d key = d.length := by omega
        have hdk : d = key := by
          have h := take_commonLen_eq d key
          rw [hi2, List.take_length, hl, List.take_length] at h
          exact h
        subst hdk
        rw [Add_update, Add_update, Add_update]
      · -- new parent for the shorter key; re-insertion is an update on it
        have hi2 : commonLen d key = key.length := by omega
        have hp : d.take key.length = key := by
          have h := take_commonLen_eq d key
          rw [hi2] at h
          rw [h, List.take_length]
        rw [Add_shorter I c d key v v1 hp hl, Add_update,
          Add_shorter I c d key v v2 hp hl]
termination_by key.length
decreasing_by simp [List.length_drop]; omega

/-- C6: Update semantics.  Inserting the same non-empty key twice with two
different valid values leaves the trie literally equal to the trie obtained
by the single second insertion — so only the second value is retrievable and
no duplicate structural entry exists. -/
theorem C6_update (t : PatriciaTrie) (key : List Nat) (v1 v2 : Nat)
    (hk : key ≠ []) (h1 : v1 ≠ I) (h2 : v2 ≠ I) (h12 : v1 ≠ v2) :
    ((t.add_key I key v1).add_key I key v2 = t.add_key I key v2) ∧
      ((t.add_key I key v1).add_key I key v2).get_value I key = v2 := by
  match key with
  | [] => exact absurd rfl hk
  | k0 :: rest =>
    constructor
    · simp only [PatriciaTrie.add_key, mfind_mset_self]
      rw [Add_Add_same I (mfind k0 t.head_) rest v1 v2, mset_mset_self]
    · simp only [PatriciaTrie.add_key, PatriciaTrie.get_value,
        mfind_mset_self]
      exact Add_get_value I _ rest v2

/-- Witness for C6 at a concrete input. -/
theorem C6_update_witness :
    (([1, 2] : List Nat) ≠ [] ∧ (5 : Nat) ≠ 9 ∧ (6 : Nat) ≠ 9 ∧
        (5 : Nat) ≠ 6) ∧
      (((⟨[]⟩ : PatriciaTrie).add_key 9 [1, 2] 5).add_key 9 [1, 2] 6 =
        (⟨[]⟩ : PatriciaTrie).add_key 9 [1, 2] 6) ∧
      (((⟨[]⟩ : PatriciaTrie).add_key 9 [1, 2] 5).add_key 9 [1, 2]
        6).get_value 9 [1, 2] = 6 :=
  ⟨⟨by decide, by decide, by decide, by decide⟩,
    C6_update 9 ⟨[]⟩ [1, 2] 5 6 (by decide) (by decide) (by decide)
      (by decide)⟩

/-! ## Prefix enumeration -/

/-- Node level: `get_values` appends exactly the values of the present
suffixes that are initial segments of the query, enumerated by strictly
increasing length (`buf.take 0, buf.take 1, …, buf.take buf.length`). -/
theorem get_values_spec (nd : Node) (buf acc : List Nat) :
    nd.get_values I buf acc =
      acc ++ List.filterMap (fun n => nd.lookupOpt I (buf.take n))
        (List.range (buf.length + 1)) := by
  match nd with
  | .mk c d v =>
    by_cases hp : buf.take d.length = d
    · have hBL : d.length ≤ buf.length := length_le_of_take_eq d buf hp
      have hA : Node.lookupOpt I (.mk c d v) (buf.take d.length) =
          if v = I then none else some v := by
        rw [Node.lookupOpt, hp,
          get_value_exact I c d d v (by rw [List.take_length]) rfl]
      have hB : ∀ n, n < d.length →
          Node.lookupOpt I (.mk c d v) (buf.take n) = none := by
        intro n hn
        have hne : (buf.take n).take d.length ≠ d := by
          intro heq
          have hlen := congrArg List.length heq
          rw [List.take_take, List.length_take] at hlen
          omega
        rw [Node.lookupOpt, get_value_not_pre I c d _ v hne]
        simp
      have hsplit : List.range (buf.length + 1) =
          (List.range d.length ++ [d.length]) ++
            List.map (fun x => (d.length + 1) + x)
              (List.range (buf.length - d.length)) := by
        rw [← List.range_succ, ← List.range_add]
        congr 1
        omega
      rw [hsplit, List.filterMap_append, List.filterMap_append]
      have hBnil :
          List.filterMap (fun n => Node.lookupOpt I (.mk c d v) (buf.take n))
            (List.range d.length) = [] := by
        rw [List.filterMap_eq_nil_iff]
        intro n hn
        exact hB n (List.mem_range.mp hn)
      have hmid :
          List.filterMap (fun n => Node.lookupOpt I (.mk c d v) (buf.take n))
            [d.length] = if v ≠ I then [v] else [] := by
        have hsing :
            List.filterMap
              (fun n => Node.lookupOpt I (.mk c d v) (buf.take n))
              [d.length] =
            match Node.lookupOpt I (.mk c d v) (buf.take d.length) with
            | none => []
            | some w => [w] := by
          cases h : Node.lookupOpt I (.mk c d v) (buf.take d.length) <;>
            simp [h]
        rw [hsing, hA]
        by_cases hv : v = I <;> simp [hv]
      rw [hBnil, hmid]
      rcases Nat.lt_or_ge d.length buf.length with hl | hl
      · -- the query continues past this edge
        have htail : ∀ n' ∈ List.range (buf.length - d.length),
            Node.lookupOpt I (.mk c d v) (buf.take ((d.length + 1) + n')) =
              (match childAt c buf[d.length] with
               | none => none
               | some ch =>
                 ch.lookupOpt I ((buf.drop (d.length + 1)).take n')) := by
          intro n' hn'
          have hn2 : n' < buf.length - d.length := List.mem_range.mp hn'
          have hpp : (buf.take ((d.length + 1) + n')).take d.length = d := by
            rw [List.take_take]
            have h2 : d.length ⊓ ((d.length + 1) + n') = d.length := by omega
            rw [h2, hp]
          have hll : d.length < (buf.take ((d.length + 1) + n')).length := by
            rw [List.length_take]; omega
          rw [Node.lookupOpt, get_value_step I c d _ v hpp hll]
          have hsub : (d.length + 1) + n' - (d.length + 1) = n' := by omega
          rw [List.getElem_take, List.drop_take, hsub]
          cases hc : childAt c buf[d.length] with
          | none => simp
          | some ch => simp [Node.lookupOpt]
        have htail2 :
            List.filterMap
              (fun n => Node.lookupOpt I (.mk c d v) (buf.take n))
              (List.map (fun x => (d.length + 1) + x)
                (List.range (buf.length - d.length))) =
            List.filterMap
              (fun n' =>
                match childAt c buf[d.length] with
                | none => none
                | some ch =>
                  ch.lookupOpt I ((buf.drop (d.length + 1)).take n'))
              (List.range (buf.length - d.length)) := by
          rw [List.filterMap_map]
          exact List.filterMap_congr fun x hx => htail x hx
        rw [htail2]
        cases hc : childAt c buf[d.length] with
        | none =>
          rw [get_values_step I c d buf v acc hp hl, hc]
          by_cases hv : v ≠ I <;> simp [hv]
        | some ch =>
          rw [get_values_step I c d buf v acc hp hl, hc]
          simp only
          rw [get_values_spec ch (buf.drop (d.length + 1)) _]
          have hlen3 : buf.length - d.length =
              (buf.drop (d.length + 1)).length + 1 := by
            rw [List.length_drop]; omega
          rw [hlen3]
          by_cases hv : v ≠ I <;> simp [hv]
      · -- the query ends exactly at this edge
        have hBL2 : buf.length = d.length := by omega
        rw [get_values_exact I c d buf v acc hp hBL2]
        have h0 : buf.length - d.length = 0 := by omega
        rw [h0]
        by_cases hv : v ≠ I <;> simp [hv]
    · -- edge mismatch: no suffix of the query resolves here
      rw [get_values_not_pre I c d buf v acc hp]
      have hnil :
          List.filterMap (fun n => Node.lookupOpt I (.mk c d v) (buf.take n))
            (List.range (buf.length + 1)) = [] := by
        rw [List.filterMap_eq_nil_iff]
        intro n hn
        have hne : (buf.take n).take d.length ≠ d := by
          intro heq
          rw [List.take_take] at heq
          have hlen := congrArg List.length heq
          rw [List.length_take] at hlen
          have hdn : d.length ≤ n := by omega
          rw [Nat.min_eq_left hdn] at heq
          exact hp heq
        rw [Node.lookupOpt, get_value_not_pre I c d _ v hne]
        simp
      rw [hnil]
      simp
termination_by buf.length
decreasing_by simp [List.length_drop]; omega

/-- C3: Prefix enumeration.  For every trie state and non-empty query `q`,
`get_values(q)` appends exactly the values of the present keys among
`q.take 1, q.take 2, …, q.take q.length` — the non-empty prefixes of `q` in
strictly increasing length order — skipping the absent ones; in particular
it appends nothing when no root subtree matches `q[0]`. -/
theorem C3_prefix_enumeration (t : PatriciaTrie) (q acc : List Nat)
    (hq : q ≠ []) :
    t.get_values I q acc =
      acc ++ List.filterMap (fun n => t.lookupOpt I (q.take (n + 1)))
        (List.range q.length) := by
  match q with
  | q0 :: rest =>
    simp only [PatriciaTrie.get_values]
    cases hf : mfind q0 t.head_ with
    | none =>
      have hnil : List.filterMap
          (fun n => t.lookupOpt I ((q0 :: rest).take (n + 1)))
          (List.range (q0 :: rest).length) = [] := by
        rw [List.filterMap_eq_nil_iff]
        intro n hn
        rw [List.take_succ_cons]
        simp [PatriciaTrie.lookupOpt, hf]
      rw [hnil]
      simp
    | some nd =>
      show Node.get_values I nd rest acc = _
      rw [get_values_spec I nd rest acc]
      congr 1
      have hlen : (q0 :: rest).length = rest.length + 1 := rfl
      rw [hlen]
      apply List.filterMap_congr
      intro n hn
      rw [List.take_succ_cons]
      simp [PatriciaTrie.lookupOpt, hf]

/-- Witness for C3 at a concrete input: keys `[1,2] ↦ 11` and
`[1,2,3] ↦ 12`, query `[1,2,3,6]`; both prefixes are reported, shortest
first. -/
theorem C3_prefix_enumeration_witness :
    (([1, 2, 3, 6] : List Nat) ≠ []) ∧
      (((⟨[]⟩ : PatriciaTrie).add_key 9 [1, 2] 11).add_key 9 [1, 2, 3]
          12).get_values 9 [1, 2, 3, 6] [] =
        [] ++ List.filterMap
          (fun n =>
            (((⟨[]⟩ : PatriciaTrie).add_key 9 [1, 2] 11).add_key 9 [1, 2, 3]
              12).lookupOpt 9 (([1, 2, 3, 6] : List Nat).take (n + 1)))
          (List.range ([1, 2, 3, 6] : List Nat).length) :=
  ⟨by decide,
    C3_prefix_enumeration 9
      (((⟨[]⟩ : PatriciaTrie).add_key 9 [1, 2] 11).add_key 9 [1, 2, 3] 12)
      [1, 2, 3, 6] [] (by decide)⟩

end PatriciaSpec
